import Mathlib

/-!
# Verification of the scaled Dirichlet preconditioner and BiCGStab solver

This development gives a shallow embedding, over exact rationals, of the
G+Smo domain-decomposition core:

* `gsScaledDirichletPrec` (files `gsIeti/gsScaledDirichletPrec.h` and
  `gsIeti/gsScaledDirichletPrec.hpp`): skeleton-dof extraction, jump-matrix
  restriction, Schur-complement block assembly, multiplicity scaling and the
  assembled additive preconditioner;
* `gsBiCgStab` (file `gsSolver/gsBiCgStab.hpp`): the preconditioned
  BiCGStab iteration step, including its breakdown handling.

Sparse matrices are embedded as triplet lists (mirroring the `gsSparseEntries`
/ `InnerIterator` view of the C++ code); vectors are lists of rationals;
dense linear algebra for the Schur-complement theorems uses Mathlib matrices.
`GISMO_ASSERT` failures are modelled as `Except.error`.
-/

namespace Gismo

/-- Error outcomes. `G+Smo` surfaces precondition violations through
`GISMO_ASSERT`; we model a firing assertion as `invalidConfiguration`.
`numericalBreakdown` is present so that a fatal solver breakdown would be
representable; the embedded solver never produces it. -/
inductive GsError where
  | invalidConfiguration
  | numericalBreakdown
  deriving DecidableEq, Repr

/-- Whether a fallible operation completed without a (modelled) assertion
failure. -/
def succeeds {α : Type} : Except GsError α → Bool
  | .ok _ => true
  | .error _ => false

/-! ## Sparse matrices as triplet lists

A `SparseMat` mirrors a `gsSparseMatrix`: dimensions plus the stored
(nonzero) entries, each a `(row, col, value)` triplet.  Iterating over all
`InnerIterator`s of the C++ matrix corresponds to traversing `entries`. -/

structure SparseMat where
  rows : ℕ
  cols : ℕ
  entries : List (ℕ × ℕ × ℚ)
  deriving DecidableEq, Repr

namespace SparseMat

/-- The mathematical value stored at position `(r, c)`: the value of the
stored entry there, `0` when no entry is stored. -/
def entry (m : SparseMat) (r c : ℕ) : ℚ :=
  match m.entries.find? (fun e => e.1 == r && e.2.1 == c) with
  | some e => e.2.2
  | none => 0

/-- Well-formedness of a compressed sparse matrix: every stored entry is in
range and nonzero, and no position is stored twice. -/
def WF (m : SparseMat) : Prop :=
  (∀ e ∈ m.entries, e.1 < m.rows ∧ e.2.1 < m.cols ∧ e.2.2 ≠ 0) ∧
  (m.entries.map (fun e => (e.1, e.2.1))).Nodup

instance (m : SparseMat) : Decidable m.WF := by
  unfold WF; infer_instance

end SparseMat

/-! ## `gsSortedVector::push_sorted_unique` and `getSkeletonDofs` -/

/-- Embeds `gsSortedVector<index_t>::push_sorted_unique`: insert `x` into the
sorted list `l` keeping it sorted, skipping the insertion when `x` is
already present. -/
def pushSortedUnique (l : List ℕ) (x : ℕ) : List ℕ :=
  match l with
  | [] => [x]
  | y :: ys =>
    if x < y then x :: y :: ys
    else if x = y then y :: ys
    else y :: pushSortedUnique ys x

/-- Embeds `gsScaledDirichletPrec::getSkeletonDofs`: traverse all stored
entries of the jump matrix and collect their column indices into a sorted,
duplicate-free vector. -/
def getSkeletonDofs (jm : SparseMat) : List ℕ :=
  jm.entries.foldl (fun acc e => pushSortedUnique acc e.2.1) []

/-! ## `restrictJumpMatrix` and zero-padding

`restrictJumpMatrix` builds the `reverse` lookup (`reverse[dofs[i]] = i+1`,
`0` elsewhere) and keeps exactly the entries whose column has a positive
label, re-indexed to the position of that column inside `dofs`.  For a
duplicate-free `dofs` of valid column indices, `reverse[c] > 0` is `c ∈ dofs`
and `reverse[c]-1` is `dofs.indexOf c`. -/

def restrictJumpMatrix (jm : SparseMat) (dofs : List ℕ) : SparseMat :=
  { rows := jm.rows
    cols := dofs.length
    entries := jm.entries.filterMap (fun e =>
      if e.2.1 ∈ dofs then some (e.1, dofs.indexOf e.2.1, e.2.2) else none) }

/-- Zero-padding of a restricted jump matrix back to `origCols` columns:
column `j` of the restricted matrix is placed back at column `dofs[j]`, all
dropped columns are zero. -/
def padJumpMatrix (rm : SparseMat) (dofs : List ℕ) (origCols : ℕ) : SparseMat :=
  { rows := rm.rows
    cols := origCols
    entries := rm.entries.map (fun e => (e.1, dofs.getD e.2.1 0, e.2.2)) }

/-! ## Vectors and list linear algebra -/

/-- Componentwise sum of two coefficient vectors. -/
def vadd (a b : List ℚ) : List ℚ := List.zipWith (· + ·) a b

/-- Componentwise difference of two coefficient vectors. -/
def vsub (a b : List ℚ) : List ℚ := List.zipWith (· - ·) a b

/-- Scalar multiple of a coefficient vector. -/
def smulV (c : ℚ) (v : List ℚ) : List ℚ := v.map (fun t => c * t)

/-- Euclidean inner product of two coefficient vectors
(`Eigen`'s `.dot` on column vectors). -/
def dotL (a b : List ℚ) : ℚ := (List.zipWith (· * ·) a b).sum

/-- Dense matrix (list of rows) applied to a vector. -/
def matVec (M : List (List ℚ)) (x : List ℚ) : List ℚ := M.map (fun row => dotL row x)

/-- A `gsLinearOperator`: dimensions plus the action on coefficient vectors. -/
structure LinOp where
  rows : ℕ
  cols : ℕ
  apply : List ℚ → List ℚ

/-- Action of a sparse matrix on a vector, accumulating the stored entries
row by row (the sparse matrix-vector product behind `makeMatrixOp`). -/
def smApply (B : SparseMat) (x : List ℚ) : List ℚ :=
  (List.range B.rows).map (fun r =>
    B.entries.foldl (fun a e => if e.1 = r then a + e.2.2 * x.getD e.2.1 0 else a) 0)

/-- Action of the transpose of a sparse matrix on a vector. -/
def smApplyTrans (B : SparseMat) (x : List ℚ) : List ℚ :=
  (List.range B.cols).map (fun c =>
    B.entries.foldl (fun a e => if e.2.1 = c then a + e.2.2 * x.getD e.1 0 else a) 0)

/-! ## The `gsScaledDirichletPrec` state -/

/-- State of a `gsScaledDirichletPrec` object.  Mirrors the member vectors of
the class: the jump matrices, the local Schur-complement operators, the (in
`gsScaledDirichletPrec.h`) still-empty per-subdomain scaling-operator slots,
and the `m_localScaling` column vectors filled by `setupMultiplicityScaling`
in `gsScaledDirichletPrec.hpp`. -/
structure Prec where
  jumpMatrices : List SparseMat
  localSchurOps : List LinOp
  localScalingOps : List (Option LinOp)
  localScalingTransOps : List (Option LinOp)
  localScaling : List (List ℚ)

/-- A freshly constructed preconditioner object: all member vectors empty. -/
def emptyPrec : Prec := ⟨[], [], [], [], []⟩

/-- Embeds `gsScaledDirichletPrec::addSubdomain`: push the jump matrix, the
local Schur operator and empty (`nullptr`) scaling slots.  The source
performs no validation whatsoever. -/
def addSubdomain (p : Prec) (jumpMatrix : SparseMat) (localSchurOp : LinOp) : Prec :=
  { p with
    jumpMatrices := p.jumpMatrices ++ [jumpMatrix]
    localSchurOps := p.localSchurOps ++ [localSchurOp]
    localScalingOps := p.localScalingOps ++ [none]
    localScalingTransOps := p.localScalingTransOps ++ [none] }

/-- Embeds `gsScaledDirichletPrec::nLagrangeMultipliers`: a `GISMO_ASSERT`
that at least one jump matrix is present, then the row count of the first
jump matrix. -/
def nLagrangeMultipliers (p : Prec) : Except GsError ℕ :=
  match p.jumpMatrices with
  | [] => .error .invalidConfiguration
  | B :: _ => .ok B.rows

/-- The per-subdomain scaling vector computed by `setupMultiplicityScaling`:
start from the all-ones column of height `sz` (the local Schur operator's row
count), then add `1` at position `it.col()` for every stored entry of the
subdomain's own jump matrix. -/
def scCompute (sz : ℕ) (entries : List (ℕ × ℕ × ℚ)) : List ℚ :=
  entries.foldl (fun sc e => sc.set e.2.1 (sc.getD e.2.1 0 + 1)) (List.replicate sz 1)

/-- Embeds `gsScaledDirichletPrec::setupMultiplicityScaling`: a `GISMO_ASSERT`
that the jump-matrix and Schur-operator counts agree, then `m_localScaling`
is rebuilt from scratch, one `scCompute` column per subdomain. -/
def setupMultiplicityScaling (p : Prec) : Except GsError Prec :=
  if p.jumpMatrices.length = p.localSchurOps.length then
    .ok { p with localScaling :=
      List.zipWith (fun B S => scCompute S.rows B.entries) p.jumpMatrices p.localSchurOps }
  else .error .invalidConfiguration

/-- The diagonal scaling operator built inside `preconditioner()` from a
scaling column `sc`: the sparse matrix with diagonal `1 / sc(i)`. -/
def scalingOp (sc : List ℚ) : LinOp :=
  { rows := sc.length
    cols := sc.length
    apply := fun x => (List.range sc.length).map (fun i => (1 / sc.getD i 0) * x.getD i 0) }

/-- Modelled from the spec: `gsProductOp` (header `gsSolver/gsProductOp.h`,
not part of this source tree) composes its operators, applying them in the
order they were added.  `preconditioner()` adds scaling, local Schur
operator, scaling, yielding `D_k S_k D_k`. -/
def localDSD (sc : List ℚ) (S : LinOp) : LinOp :=
  { rows := S.rows
    cols := S.cols
    apply := fun x => (scalingOp sc).apply (S.apply ((scalingOp sc).apply x)) }

/-- Modelled from the spec: `gsAdditiveOp` (header `gsSolver/gsAdditiveOp.h`,
not part of this source tree) combines local operators through transfer
(jump) matrices; its action is
`x ↦ Σ_k B_k · Op_k (B_kᵀ · x)`, matching the class documentation
`Σ_k  B_k  D_k⁻¹  S_k  D_k⁻¹  B_kᵀ` in `gsScaledDirichletPrec.h`. -/
def additiveApply (pairs : List (SparseMat × LinOp)) (x : List ℚ) : List ℚ :=
  pairs.foldl (fun acc q => vadd acc (smApply q.1 (q.2.apply (smApplyTrans q.1 x))))
    (List.replicate ((pairs.head?.map (fun q => q.1.rows)).getD 0) 0)

/-- Embeds `gsScaledDirichletPrec::preconditioner`: two `GISMO_ASSERT`s
(the jump-matrix count must agree with the scaling count and with the Schur
operator count), then the additive combination of `B_k D_k S_k D_k B_kᵀ`
over all subdomains. -/
def preconditioner (p : Prec) : Except GsError LinOp :=
  if p.jumpMatrices.length = p.localScaling.length then
    if p.jumpMatrices.length = p.localSchurOps.length then
      .ok { rows := (p.jumpMatrices.head?.map SparseMat.rows).getD 0
            cols := (p.jumpMatrices.head?.map SparseMat.rows).getD 0
            apply := additiveApply
              ((p.jumpMatrices.zip (p.localSchurOps.zip p.localScaling)).map
                (fun q => (q.1, localDSD q.2.2 q.2.1))) }
    else .error .invalidConfiguration
  else .error .invalidConfiguration

/-! ## The BiCGStab iteration (`gsBiCgStab.hpp`)

The solver state consists of the iterate `x`, the residual `res`, the shadow
residual `r0`, the direction `p`, the auxiliary vector `v` and the scalars
`alpha`, `rho`, `w`, exactly the member variables used by
`gsBiCgStab::step`.  The system operator `A` and the preconditioner `P` are
parameters.  Each helper definition below names one intermediate quantity of
the body of `step`, in the order the source computes them. -/

structure BState where
  x : List ℚ
  res : List ℚ
  r0 : List ℚ
  p : List ℚ
  v : List ℚ
  alpha : ℚ
  rho : ℚ
  w : ℚ
  deriving DecidableEq, Repr

/-- The breakdown test of `gsBiCgStab::step`:
`abs(m_rho) < 1e-32 * m_r0.dot(m_r0)` evaluated on `m_rho = m_r0.dot(m_res)`. -/
def breakdownTest (s : BState) : Bool :=
  decide (|dotL s.r0 s.res| < (1 / 10 ^ 32 : ℚ) * dotL s.r0 s.r0)

/-- Shadow residual after the (possible) breakdown restart: on breakdown the
source sets `m_r0 = m_res`. -/
def r0After (s : BState) : List ℚ :=
  if breakdownTest s then s.res else s.r0

/-- `m_rho` after the (possible) breakdown restart: on breakdown the source
recomputes `m_rho = m_r0.dot(m_r0)` with the freshly reset `m_r0 = m_res`. -/
def rhoAfter (s : BState) : ℚ :=
  if breakdownTest s then dotL s.res s.res else dotL s.r0 s.res

/-- `beta = (m_rho/rho_old)*(m_alpha/m_w)`. -/
def betaNew (s : BState) : ℚ := (rhoAfter s / s.rho) * (s.alpha / s.w)

/-- `m_p = m_res + beta*(m_p - m_w * m_v)`. -/
def pNew (s : BState) : List ℚ :=
  vadd s.res (smulV (betaNew s) (vsub s.p (smulV s.w s.v)))

/-- `m_y`: the preconditioner applied to the new direction `m_p`. -/
def yNew (P : List ℚ → List ℚ) (s : BState) : List ℚ := P (pNew s)

/-- `m_v = A * m_y`. -/
def vNew (A P : List ℚ → List ℚ) (s : BState) : List ℚ := A (P (pNew s))

/-- The denominator `m_r0.dot(m_v)` of the `alpha` update.  The source
divides by it without any guard. -/
def alphaDenom (A P : List ℚ → List ℚ) (s : BState) : ℚ :=
  dotL (r0After s) (vNew A P s)

/-- `m_alpha = m_rho / (m_r0.dot(m_v))`. -/
def alphaNew (A P : List ℚ → List ℚ) (s : BState) : ℚ :=
  rhoAfter s / alphaDenom A P s

/-- `m_s = m_res - m_alpha * m_v`. -/
def sNew (A P : List ℚ → List ℚ) (s : BState) : List ℚ :=
  vsub s.res (smulV (alphaNew A P s) (vNew A P s))

/-- `m_t = A * m_z` with `m_z` the preconditioned `m_s`. -/
def tNew (A P : List ℚ → List ℚ) (s : BState) : List ℚ := A (P (sNew A P s))

/-- The denominator `m_t.dot(m_t)` of the `omega` update. -/
def wDenom (A P : List ℚ → List ℚ) (s : BState) : ℚ :=
  dotL (tNew A P s) (tNew A P s)

/-- The guarded `omega` update:
`m_w = m_t.dot(m_s)/m_t.dot(m_t)` when `m_t.dot(m_t) > 0`, else `m_w = 0`. -/
def wNew (A P : List ℚ → List ℚ) (s : BState) : ℚ :=
  if 0 < wDenom A P s then dotL (tNew A P s) (sNew A P s) / wDenom A P s else 0

/-- The state after one execution of the body of `gsBiCgStab::step`:
`x += alpha*y + w*z`, `res -= alpha*v + w*t`, and the member scalars and
vectors keep their end-of-body values. -/
def stepState (A P : List ℚ → List ℚ) (s : BState) : BState :=
  { x := vadd s.x (vadd (smulV (alphaNew A P s) (yNew P s)) (smulV (wNew A P s) (P (sNew A P s))))
    res := vsub s.res (vadd (smulV (alphaNew A P s) (vNew A P s)) (smulV (wNew A P s) (tNew A P s)))
    r0 := r0After s
    p := pNew s
    v := vNew A P s
    alpha := alphaNew A P s
    rho := rhoAfter s
    w := wNew A P s }

/-- One iteration of `gsBiCgStab::step` as a fallible transition.  The body
of `step` contains no error exit of any kind, so the embedding always
returns `Except.ok`. -/
def step (A P : List ℚ → List ℚ) (s : BState) : Except GsError BState :=
  .ok (stepState A P s)

/-- Embeds `gsBiCgStab::initIteration` (state part): `res = r0 = rhs - A x0`,
`p = v = 0` of length `n = A.cols()`, `alpha = rho = w = 1`. -/
def initState (A : List ℚ → List ℚ) (n : ℕ) (rhs x0 : List ℚ) : BState :=
  { x := x0
    res := vsub rhs (A x0)
    r0 := vsub rhs (A x0)
    p := List.replicate n 0
    v := List.replicate n 0
    alpha := 1
    rho := 1
    w := 1 }

/-! ## The Schur-complement engine (`gsScaledDirichletPrec::schurComplement`)

`schurComplement(mat, dofs)` labels every index of the square matrix: index
`dofs[i]` gets positive label `i+1`; the remaining indices get, scanned in
increasing order, negative labels `-1, -2, …`.  Every stored entry of `mat`
lands, according to the labels of its row and column, in one of the four
blocks `A00`, `A01`, `A10`, `A11`; the entries of `A11` are negated
(`// Since we need a minus in the Schur complement`).  For a duplicate-free
`dofs` this is the dense block extraction below, with the complement indices
enumerated in increasing order. -/

/-- The indices not in `dofs`, in increasing order: these receive the
negative labels `-1, -2, …` in the source's `reverse` vector. -/
def interiorDofs (n : ℕ) (dofs : List (Fin n)) : List (Fin n) :=
  (List.finRange n).filter (fun i => !(dofs.contains i))

/-- Block `A00`: rows and columns kept by `dofs`, in the order of `dofs`. -/
def blkA00 {n : ℕ} (M : Matrix (Fin n) (Fin n) ℚ) (dofs : List (Fin n)) :
    Matrix (Fin dofs.length) (Fin dofs.length) ℚ :=
  Matrix.of fun i j => M (dofs.get i) (dofs.get j)

/-- Block `A01`: kept rows, eliminated columns. -/
def blkA01 {n : ℕ} (M : Matrix (Fin n) (Fin n) ℚ) (dofs : List (Fin n)) :
    Matrix (Fin dofs.length) (Fin (interiorDofs n dofs).length) ℚ :=
  Matrix.of fun i j => M (dofs.get i) ((interiorDofs n dofs).get j)

/-- Block `A10`: eliminated rows, kept columns. -/
def blkA10 {n : ℕ} (M : Matrix (Fin n) (Fin n) ℚ) (dofs : List (Fin n)) :
    Matrix (Fin (interiorDofs n dofs).length) (Fin dofs.length) ℚ :=
  Matrix.of fun i j => M ((interiorDofs n dofs).get i) (dofs.get j)

/-- Block `A11` as the source stores it: the eliminated-by-eliminated block
with every entry negated. -/
def blkA11 {n : ℕ} (M : Matrix (Fin n) (Fin n) ℚ) (dofs : List (Fin n)) :
    Matrix (Fin (interiorDofs n dofs).length) (Fin (interiorDofs n dofs).length) ℚ :=
  Matrix.of fun i j => -(M ((interiorDofs n dofs).get i) ((interiorDofs n dofs).get j))

/-- The operator returned by `schurComplement`:
`gsSumOp(makeMatrixOp(A00), gsProductOp(makeMatrixOp(A10), solver, makeMatrixOp(A01)))`.
Modelled from the spec for the parts outside this source tree: `gsSumOp`
adds the two actions, `gsProductOp` applies its factors in the order they
were given (`A10`, then `solver`, then `A01`), and `solver`
(`makeSparseCholeskySolver(A11)`) realizes the inverse of the stored
(negated) block `A11`; here `solver` is an explicit parameter. -/
def schurComplementApply {n : ℕ} (M : Matrix (Fin n) (Fin n) ℚ) (dofs : List (Fin n))
    (solver : (Fin (interiorDofs n dofs).length → ℚ) → Fin (interiorDofs n dofs).length → ℚ)
    (x : Fin dofs.length → ℚ) : Fin dofs.length → ℚ :=
  (blkA00 M dofs).mulVec x + (blkA01 M dofs).mulVec (solver ((blkA10 M dofs).mulVec x))

/-- A dense matrix as a `gsLinearOperator` on coefficient lists
(`makeMatrixOp`). -/
def ofMatrixOp {m n : ℕ} (M : Matrix (Fin m) (Fin n) ℚ) : LinOp :=
  { rows := m
    cols := n
    apply := fun x => List.ofFn (fun i : Fin m => ∑ j : Fin n, M i j * x.getD j.val 0) }

/-! ## General lemmas -/

/-- The inner product of a vector with itself is nonnegative. -/
theorem dotL_self_nonneg (a : List ℚ) : 0 ≤ dotL a a := by
  induction a with
  | nil => simp [dotL]
  | cons h t ih =>
    have : dotL (h :: t) (h :: t) = h * h + dotL t t := by simp [dotL]
    rw [this]
    exact add_nonneg (mul_self_nonneg h) ih

/-! ## Claim C1 -/

/-- **C1 (amended).** `addSubdomain` performs no validation: for every
preconditioner state, jump matrix and Schur operator, registration succeeds
unconditionally, appending the jump matrix and the Schur operator (and empty
scaling slots) — in particular a jump matrix whose row count differs from
the previously registered ones is registered without any
`StructuralMismatch` error. -/
theorem addSubdomain_registers_unconditionally (p : Prec) (B : SparseMat) (S : LinOp) :
    (addSubdomain p B S).jumpMatrices = p.jumpMatrices ++ [B] ∧
    (addSubdomain p B S).localSchurOps = p.localSchurOps ++ [S] ∧
    (addSubdomain p B S).localScalingOps = p.localScalingOps ++ [none] ∧
    (addSubdomain p B S).localScaling = p.localScaling :=
  ⟨rfl, rfl, rfl, rfl⟩

/-- **C1, counterexample.** Registering a second subdomain whose jump matrix
has 2 rows after a first one with 1 row does not fail: both jump matrices
end up registered, so `addSubdomain` detects no `StructuralMismatch`. -/
theorem addSubdomain_rowMismatch_registers :
    (⟨1, 1, [(0, 0, (1 : ℚ))]⟩ : SparseMat).rows ≠ (⟨2, 1, [(0, 0, (1 : ℚ))]⟩ : SparseMat).rows ∧
    (addSubdomain (addSubdomain emptyPrec ⟨1, 1, [(0, 0, 1)]⟩ ⟨1, 1, fun x => x⟩)
        ⟨2, 1, [(0, 0, 1)]⟩ ⟨1, 1, fun x => x⟩).jumpMatrices
      = [⟨1, 1, [(0, 0, 1)]⟩, ⟨2, 1, [(0, 0, 1)]⟩] := by
  exact ⟨by decide, rfl⟩

/-! ## Claim C6 -/

/-- **C6 (amended).** `nLagrangeMultipliers` fails with an
`InvalidConfiguration` assertion when no subdomain is registered;
`preconditioner` fails with `InvalidConfiguration` when subdomains are
registered but scaling was never computed; with at least one subdomain,
`nLagrangeMultipliers` returns the row count of the first registered jump
matrix (the shared count when all agree).  With zero subdomains,
`preconditioner` does *not* fail (see the counterexample). -/
theorem invalidConfiguration_guards :
    nLagrangeMultipliers emptyPrec = Except.error GsError.invalidConfiguration ∧
    (∀ p : Prec, p.jumpMatrices ≠ [] → p.localScaling = [] →
      preconditioner p = Except.error GsError.invalidConfiguration) ∧
    (∀ (p : Prec) (B : SparseMat) (rest : List SparseMat),
      p.jumpMatrices = B :: rest → nLagrangeMultipliers p = Except.ok B.rows) := by
  refine ⟨rfl, ?_, ?_⟩
  · intro p h1 h2
    have hlen : p.jumpMatrices.length ≠ 0 := by
      simpa [List.length_eq_zero] using h1
    simp [preconditioner, h2, hlen]
  · intro p B rest h
    simp [nLagrangeMultipliers, h]

/-- **C6, witness.** A concrete instantiation: after registering one
subdomain (jump matrix with 1 row) and never computing the scaling,
`preconditioner` fails with `InvalidConfiguration`, and
`nLagrangeMultipliers` returns 1. -/
theorem invalidConfiguration_guards_wit :
    preconditioner (addSubdomain emptyPrec ⟨1, 3, [(0, 2, 1)]⟩ ⟨3, 3, fun x => x⟩)
      = Except.error GsError.invalidConfiguration ∧
    nLagrangeMultipliers (addSubdomain emptyPrec ⟨1, 3, [(0, 2, 1)]⟩ ⟨3, 3, fun x => x⟩)
      = Except.ok 1 :=
  ⟨invalidConfiguration_guards.2.1 _ (by simp [addSubdomain, emptyPrec]) rfl,
   invalidConfiguration_guards.2.2 _ ⟨1, 3, [(0, 2, 1)]⟩ [] rfl⟩

/-- **C6, counterexample.** With zero registered subdomains,
`preconditioner()` does not fail: both size assertions compare `0 = 0`, and
an (empty) additive operator is returned — contradicting the claim that it
fails with `InvalidConfiguration` and produces no partial result. -/
theorem preconditioner_empty_succeeds :
    succeeds (preconditioner emptyPrec) = true := rfl

/-! ## Claim C9 -/

/-- **C9.** In every BiCGStab iteration the stabilization scalar `omega` is
`⟨t,s⟩/⟨t,t⟩` when `⟨t,t⟩ > 0` and `0` otherwise: the denominator `⟨t,t⟩` is
always nonnegative, the division is only performed when it is strictly
positive (never zero), and otherwise `omega = 0`, which disables the
stabilization update of that step. -/
theorem bicgstab_omega_guarded (A P : List ℚ → List ℚ) (s : BState) :
    0 ≤ wDenom A P s ∧
    (stepState A P s).w = wNew A P s ∧
    (0 < wDenom A P s →
      wDenom A P s ≠ 0 ∧ wNew A P s * wDenom A P s = dotL (tNew A P s) (sNew A P s)) ∧
    (¬ 0 < wDenom A P s → wNew A P s = 0) := by
  refine ⟨dotL_self_nonneg _, rfl, ?_, ?_⟩
  · intro h
    refine ⟨ne_of_gt h, ?_⟩
    rw [wNew, if_pos h]
    exact div_mul_cancel₀ _ (ne_of_gt h)
  · intro h
    rw [wNew, if_neg h]

/-- **C9, witness.** A concrete iteration in which `⟨t,t⟩ > 0`, so the
division branch is taken and `omega · ⟨t,t⟩ = ⟨t,s⟩`. -/
theorem bicgstab_omega_guarded_wit :
    (0 : ℚ) < wDenom (matVec [[2, 0], [0, 1]]) id ⟨[0, 0], [1, 1], [1, 1], [0, 0], [0, 0], 1, 1, 1⟩ ∧
    wNew (matVec [[2, 0], [0, 1]]) id ⟨[0, 0], [1, 1], [1, 1], [0, 0], [0, 0], 1, 1, 1⟩ *
        wDenom (matVec [[2, 0], [0, 1]]) id ⟨[0, 0], [1, 1], [1, 1], [0, 0], [0, 0], 1, 1, 1⟩
      = dotL (tNew (matVec [[2, 0], [0, 1]]) id ⟨[0, 0], [1, 1], [1, 1], [0, 0], [0, 0], 1, 1, 1⟩)
          (sNew (matVec [[2, 0], [0, 1]]) id ⟨[0, 0], [1, 1], [1, 1], [0, 0], [0, 0], 1, 1, 1⟩) :=
  ⟨by norm_num [wDenom, tNew, sNew, alphaNew, alphaDenom, vNew, yNew, pNew, betaNew,
      rhoAfter, r0After, breakdownTest, vadd, vsub, smulV, dotL, matVec],
   ((bicgstab_omega_guarded (matVec [[2, 0], [0, 1]]) id
      ⟨[0, 0], [1, 1], [1, 1], [0, 0], [0, 0], 1, 1, 1⟩).2.2.1
      (by norm_num [wDenom, tNew, sNew, alphaNew, alphaDenom, vNew, yNew, pNew, betaNew,
        rhoAfter, r0After, breakdownTest, vadd, vsub, smulV, dotL, matVec])).2⟩

/-! ## Claim C10 -/

/-- **C10.** In every BiCGStab iteration, `alpha` is computed as
`rho_new / ⟨r̂₀, v⟩` with no guard on the denominator (first conjunct), and
there are reachable solver states on which this denominator is exactly `0`:
with the symmetric indefinite system matrix `[[0,1],[1,0]]`, identity
preconditioner, right-hand side `(1,0)` and zero initial guess, the state
produced by `initIteration` has a nonzero residual (so iteration starts for
any tolerance below 1), passes the breakdown guard, and yields
`⟨r̂₀, v⟩ = 0` in the very first iteration — unlike the guarded `omega`
division of the same step. -/
theorem bicgstab_alpha_unguarded :
    (∀ (A P : List ℚ → List ℚ) (s : BState),
      (stepState A P s).alpha = rhoAfter s / alphaDenom A P s) ∧
    breakdownTest (initState (matVec [[0, 1], [1, 0]]) 2 [1, 0] [0, 0]) = false ∧
    dotL (initState (matVec [[0, 1], [1, 0]]) 2 [1, 0] [0, 0]).res
        (initState (matVec [[0, 1], [1, 0]]) 2 [1, 0] [0, 0]).res ≠ 0 ∧
    alphaDenom (matVec [[0, 1], [1, 0]]) id
        (initState (matVec [[0, 1], [1, 0]]) 2 [1, 0] [0, 0]) = 0 :=
  ⟨fun _ _ _ => rfl,
   by norm_num [breakdownTest, initState, vsub, dotL, matVec],
   by norm_num [initState, vsub, dotL, matVec],
   by norm_num [alphaDenom, r0After, vNew, pNew, betaNew, rhoAfter, breakdownTest,
     initState, vadd, vsub, smulV, dotL, matVec, List.replicate]⟩

/-! ## Claim C2 -/

/-- **C2 (amended).** In every BiCGStab iteration, when `|rho_new|` is
smaller than the fixed fraction `1e-32` of `⟨r̂₀,r̂₀⟩` the solver declares a
breakdown, resets `r̂₀` to the current residual and recomputes `rho_new` as
`⟨r̂₀,r̂₀⟩` — but this recovery is *not* bounded by any retry counter and
never escalates to a fatal `NumericalBreakdown` failure: the step body has
no error exit, and always returns an ordinary successor state. -/
theorem bicgstab_breakdown_restart_unbounded (A P : List ℚ → List ℚ) (s : BState)
    (h : breakdownTest s = true) :
    step A P s = Except.ok (stepState A P s) ∧
    (stepState A P s).r0 = s.res ∧
    (stepState A P s).rho = dotL s.res s.res := by
  refine ⟨rfl, ?_, ?_⟩
  · show r0After s = s.res
    rw [r0After, if_pos h]
  · show rhoAfter s = dotL s.res s.res
    rw [rhoAfter, if_pos h]

/-- **C2, witness.** A concrete state whose residual is orthogonal to the
shadow residual: the breakdown branch fires, the step succeeds, and the
shadow residual is reset to the residual. -/
theorem bicgstab_breakdown_restart_unbounded_wit :
    breakdownTest ⟨[0, 0], [1, 0], [0, 1], [0, 0], [0, 0], 1, 1, 1⟩ = true ∧
    (step id id ⟨[0, 0], [1, 0], [0, 1], [0, 0], [0, 0], 1, 1, 1⟩
        = Except.ok (stepState id id ⟨[0, 0], [1, 0], [0, 1], [0, 0], [0, 0], 1, 1, 1⟩) ∧
      (stepState id id ⟨[0, 0], [1, 0], [0, 1], [0, 0], [0, 0], 1, 1, 1⟩).r0
        = (⟨[0, 0], [1, 0], [0, 1], [0, 0], [0, 0], 1, 1, 1⟩ : BState).res ∧
      (stepState id id ⟨[0, 0], [1, 0], [0, 1], [0, 0], [0, 0], 1, 1, 1⟩).rho
        = dotL (⟨[0, 0], [1, 0], [0, 1], [0, 0], [0, 0], 1, 1, 1⟩ : BState).res
            (⟨[0, 0], [1, 0], [0, 1], [0, 0], [0, 0], 1, 1, 1⟩ : BState).res) :=
  ⟨by norm_num [breakdownTest, dotL],
   bicgstab_breakdown_restart_unbounded id id
     ⟨[0, 0], [1, 0], [0, 1], [0, 0], [0, 0], 1, 1, 1⟩ (by norm_num [breakdownTest, dotL])⟩

/-- **C2, counterexample.** Two consecutive iterations from a concrete state
both trigger the breakdown test, and both complete without any fatal
failure: there is no retry budget whose exhaustion escalates to a
`NumericalBreakdown` error. -/
theorem bicgstab_consecutive_breakdowns_no_failure :
    breakdownTest ⟨[0, 0], [1, 0], [0, 1], [0, 0], [0, 0], 1, 1, 1⟩ = true ∧
    succeeds (step id id ⟨[0, 0], [1, 0], [0, 1], [0, 0], [0, 0], 1, 1, 1⟩) = true ∧
    breakdownTest (stepState id id ⟨[0, 0], [1, 0], [0, 1], [0, 0], [0, 0], 1, 1, 1⟩) = true ∧
    succeeds (step id id (stepState id id ⟨[0, 0], [1, 0], [0, 1], [0, 0], [0, 0], 1, 1, 1⟩))
      = true := by
  refine ⟨by norm_num [breakdownTest, dotL], rfl, ?_, rfl⟩
  norm_num [breakdownTest, stepState, r0After, rhoAfter, betaNew, pNew, yNew, vNew,
    alphaDenom, alphaNew, sNew, tNew, wDenom, wNew, vadd, vsub, smulV, dotL]

/-! ## Claim C7 -/

/-- Membership after a sorted-unique insertion. -/
theorem mem_pushSortedUnique {l : List ℕ} {x y : ℕ} :
    y ∈ pushSortedUnique l x ↔ y ∈ l ∨ y = x := by
  induction l with
  | nil => simp [pushSortedUnique]
  | cons z zs ih =>
    by_cases h1 : x < z
    · simp [pushSortedUnique, h1]
      tauto
    · by_cases h2 : x = z
      · subst h2
        simp [pushSortedUnique, h1]
        tauto
      · simp [pushSortedUnique, h1, h2, ih]
        tauto

/-- Sorted-unique insertion preserves strict sortedness. -/
theorem sorted_pushSortedUnique {l : List ℕ} (hl : l.Sorted (· < ·)) (x : ℕ) :
    (pushSortedUnique l x).Sorted (· < ·) := by
  induction l with
  | nil => simp [pushSortedUnique]
  | cons z zs ih =>
    rw [List.sorted_cons] at hl
    by_cases h1 : x < z
    · rw [pushSortedUnique, if_pos h1, List.sorted_cons]
      refine ⟨?_, List.sorted_cons.2 hl⟩
      intro b hb
      rcases List.mem_cons.1 hb with hb | hb
      · exact hb ▸ h1
      · exact lt_trans h1 (hl.1 b hb)
    · by_cases h2 : x = z
      · rw [pushSortedUnique, if_neg h1, if_pos h2]
        exact List.sorted_cons.2 hl
      · rw [pushSortedUnique, if_neg h1, if_neg h2, List.sorted_cons]
        refine ⟨?_, ih hl.2⟩
        intro b hb
        rcases mem_pushSortedUnique.1 hb with hb | hb
        · exact hl.1 b hb
        · subst hb
          omega

/-- The fold inside `getSkeletonDofs`: starting from a sorted accumulator it
stays sorted, and collects exactly the accumulator plus the column indices
of the traversed entries. -/
theorem skeletonFold_spec (es : List (ℕ × ℕ × ℚ)) (acc : List ℕ)
    (hacc : acc.Sorted (· < ·)) :
    (es.foldl (fun a e => pushSortedUnique a e.2.1) acc).Sorted (· < ·) ∧
    (∀ c, c ∈ es.foldl (fun a e => pushSortedUnique a e.2.1) acc ↔
      c ∈ acc ∨ ∃ e ∈ es, e.2.1 = c) := by
  induction es generalizing acc with
  | nil => simpa using hacc
  | cons e es ih =>
    have h := ih (pushSortedUnique acc e.2.1) (sorted_pushSortedUnique hacc e.2.1)
    refine ⟨h.1, fun c => ?_⟩
    rw [List.foldl_cons, (h.2 c), mem_pushSortedUnique]
    simp only [List.mem_cons]
    constructor
    · rintro ((hc | hc) | ⟨f, hf, hfc⟩)
      · exact Or.inl hc
      · exact Or.inr ⟨e, Or.inl rfl, hc.symm⟩
      · exact Or.inr ⟨f, Or.inr hf, hfc⟩
    · rintro (hc | ⟨f, (hf | hf), hfc⟩)
      · exact Or.inl (Or.inl hc)
      · exact Or.inl (Or.inr (hf ▸ hfc).symm)
      · exact Or.inr ⟨f, hf, hfc⟩

/-- The stored value at `(r, c)` is nonzero exactly when an entry is stored
there (well-formed matrices store only nonzero values, each position at most
once). -/
theorem entry_ne_zero_iff {m : SparseMat} (hwf : m.WF) {r c : ℕ} :
    m.entry r c ≠ 0 ↔ ∃ v, (r, c, v) ∈ m.entries := by
  unfold SparseMat.entry
  cases hfind : m.entries.find? (fun e => e.1 == r && e.2.1 == c) with
  | none =>
    simp only [ne_eq, not_true_eq_false, false_iff]
    rintro ⟨v, hv⟩
    have := List.find?_eq_none.1 hfind _ hv
    simp at this
  | some e =>
    have hmem := List.mem_of_find?_eq_some hfind
    have hpred := List.find?_some hfind
    simp only [Bool.and_eq_true, beq_iff_eq] at hpred
    have hval : e.2.2 ≠ 0 := ((hwf.1 e hmem).2).2
    simp only [ne_eq, hval, not_false_eq_true, true_iff]
    exact ⟨e.2.2, by
      have : e = (r, c, e.2.2) := by
        obtain ⟨e1, e2, e3⟩ := e
        simp only at hpred
        simp [hpred.1, hpred.2]
      exact this ▸ hmem⟩

/-- **C7.** For every well-formed sparse jump matrix, `getSkeletonDofs`
returns exactly the column indices having at least one nonzero entry, in
strictly increasing order (hence without duplicates); a wholly-zero column
never appears in the result. -/
theorem getSkeletonDofs_spec (jm : SparseMat) (hwf : jm.WF) :
    (getSkeletonDofs jm).Sorted (· < ·) ∧
    (getSkeletonDofs jm).Nodup ∧
    (∀ c, c ∈ getSkeletonDofs jm ↔ ∃ r, jm.entry r c ≠ 0) := by
  have h := skeletonFold_spec jm.entries [] (by simp)
  refine ⟨h.1, h.1.nodup, fun c => ?_⟩
  rw [getSkeletonDofs, h.2 c]
  simp only [List.not_mem_nil, false_or]
  constructor
  · rintro ⟨e, he, hec⟩
    refine ⟨e.1, (entry_ne_zero_iff hwf).2 ⟨e.2.2, ?_⟩⟩
    obtain ⟨e1, e2, e3⟩ := e
    simp only at hec
    exact hec ▸ he
  · rintro ⟨r, hr⟩
    obtain ⟨v, hv⟩ := (entry_ne_zero_iff hwf).1 hr
    exact ⟨(r, c, v), hv, rfl⟩

/-- **C7, witness.** A concrete well-formed jump matrix with entries in
columns 3 and 1 only: its skeleton-dof vector satisfies the specification
(in particular it is `[1, 3]`). -/
theorem getSkeletonDofs_spec_wit :
    (⟨2, 4, [(0, 3, 1), (1, 1, -1), (0, 1, 2)]⟩ : SparseMat).WF ∧
    getSkeletonDofs ⟨2, 4, [(0, 3, 1), (1, 1, -1), (0, 1, 2)]⟩ = [1, 3] ∧
    ((getSkeletonDofs ⟨2, 4, [(0, 3, 1), (1, 1, -1), (0, 1, 2)]⟩).Sorted (· < ·) ∧
      (getSkeletonDofs ⟨2, 4, [(0, 3, 1), (1, 1, -1), (0, 1, 2)]⟩).Nodup ∧
      (∀ c, c ∈ getSkeletonDofs ⟨2, 4, [(0, 3, 1), (1, 1, -1), (0, 1, 2)]⟩ ↔
        ∃ r, (⟨2, 4, [(0, 3, 1), (1, 1, -1), (0, 1, 2)]⟩ : SparseMat).entry r c ≠ 0)) :=
  ⟨by decide, by norm_num [getSkeletonDofs, pushSortedUnique],
   getSkeletonDofs_spec _ (by decide)⟩

/-! ## Claim C5 -/

/-- Reading back the slot just written by `List.set`. -/
theorem getD_set_self (l : List ℚ) (i : ℕ) (a : ℚ) (h : i < l.length) :
    (l.set i a).getD i 0 = a := by
  induction l generalizing i with
  | nil => simp at h
  | cons x xs ih =>
    cases i with
    | zero => simp
    | succ n => simpa using ih n (by simpa using h)

/-- `List.set` leaves all other slots unchanged. -/
theorem getD_set_other (l : List ℚ) (i j : ℕ) (a : ℚ) (h : i ≠ j) :
    (l.set i a).getD j 0 = l.getD j 0 := by
  induction l generalizing i j with
  | nil => simp
  | cons x xs ih =>
    cases i with
    | zero =>
      cases j with
      | zero => exact absurd rfl h
      | succ m => simp
    | succ n =>
      cases j with
      | zero => simp
      | succ m => simpa using ih n m (fun hnm => h (by rw [hnm]))

/-- Every in-range slot of a replicated list holds the replicated value. -/
theorem getD_replicate (n i : ℕ) (h : i < n) : (List.replicate n (1 : ℚ)).getD i 0 = 1 := by
  induction n generalizing i with
  | zero => omega
  | succ m ih =>
    cases i with
    | zero => simp [List.replicate]
    | succ k => simpa [List.replicate] using ih k (by omega)

/-- Indexing a `zipWith` of two lists. -/
theorem zipWith_get? {α β γ : Type} (f : α → β → γ) (l1 : List α) (l2 : List β)
    (k : ℕ) (a : α) (b : β) (h1 : l1.get? k = some a) (h2 : l2.get? k = some b) :
    (List.zipWith f l1 l2).get? k = some (f a b) := by
  induction l1 generalizing l2 k with
  | nil => simp at h1
  | cons x xs ih =>
    cases l2 with
    | nil => simp at h2
    | cons y ys =>
      cases k with
      | zero =>
        simp only [List.get?_cons_zero, Option.some_inj] at h1 h2
        simp [h1, h2]
      | succ n => simpa using ih ys n (by simpa using h1) (by simpa using h2)

/-- The increment fold of `setupMultiplicityScaling`: the final value of an
in-range slot `c` is its initial value plus the number of traversed entries
whose column is `c`. -/
theorem scFold_getD (es : List (ℕ × ℕ × ℚ)) (init : List ℚ) (c : ℕ)
    (hc : c < init.length) :
    (es.foldl (fun sc e => sc.set e.2.1 (sc.getD e.2.1 0 + 1)) init).getD c 0
      = init.getD c 0 + ((es.filter (fun e => e.2.1 = c)).length : ℚ) := by
  induction es generalizing init with
  | nil => simp
  | cons e es ih =>
    rw [List.foldl_cons]
    have hlen : (init.set e.2.1 (init.getD e.2.1 0 + 1)).length = init.length := by simp
    rw [ih _ (by rw [hlen]; exact hc)]
    by_cases hec : e.2.1 = c
    · rw [hec, getD_set_self init c _ hc, List.filter_cons_of_pos (by simp [hec]),
        List.length_cons]
      push_cast
      ring
    · rw [getD_set_other init e.2.1 c _ hec, List.filter_cons_of_neg (by simp [hec])]

/-- The scaling column of one subdomain: slot `c` holds `1` plus the number
of the subdomain's own jump-matrix entries in column `c`. -/
theorem scCompute_getD (sz : ℕ) (es : List (ℕ × ℕ × ℚ)) (c : ℕ) (hc : c < sz) :
    (scCompute sz es).getD c 0 = 1 + ((es.filter (fun e => e.2.1 = c)).length : ℚ) := by
  rw [scCompute, scFold_getD es _ c (by simpa using hc), getD_replicate sz c hc]

/-- For a well-formed sparse matrix, the number of stored entries in column
`c` equals the number of rows having a nonzero value in column `c`. -/
theorem filter_col_card (B : SparseMat) (hwf : B.WF) (c : ℕ) :
    (B.entries.filter (fun e => e.2.1 = c)).length
      = ((Finset.range B.rows).filter (fun r => B.entry r c ≠ 0)).card := by
  classical
  have hsub : (B.entries.filter (fun e => e.2.1 = c)).Sublist B.entries :=
    List.filter_sublist _
  have hnd : (B.entries.filter (fun e => e.2.1 = c)).Nodup :=
    (List.Nodup.of_map _ hwf.2).filter _
  have hrow : ((B.entries.filter (fun e => e.2.1 = c)).map (fun e => e.1)).Nodup := by
    refine List.Nodup.map_on ?_ hnd
    intro x hx y hy hxy
    have hxc : x.2.1 = c := by simpa using (List.mem_filter.1 hx).2
    have hyc : y.2.1 = c := by simpa using (List.mem_filter.1 hy).2
    exact List.inj_on_of_nodup_map hwf.2 (hsub.subset hx) (hsub.subset hy)
      (by rw [Prod.mk.injEq]; exact ⟨hxy, by rw [hxc, hyc]⟩)
  calc (B.entries.filter (fun e => e.2.1 = c)).length
      = ((B.entries.filter (fun e => e.2.1 = c)).map (fun e => e.1)).length := by
        rw [List.length_map]
    _ = ((B.entries.filter (fun e => e.2.1 = c)).map (fun e => e.1)).toFinset.card :=
        (List.toFinset_card_of_nodup hrow).symm
    _ = ((Finset.range B.rows).filter (fun r => B.entry r c ≠ 0)).card := by
        congr 1
        ext r
        simp only [List.mem_toFinset, List.mem_map, List.mem_filter, Finset.mem_filter,
          Finset.mem_range, decide_eq_true_eq]
        constructor
        · rintro ⟨e, ⟨he, hec⟩, her⟩
          refine ⟨her ▸ (hwf.1 e he).1, (entry_ne_zero_iff hwf).2 ⟨e.2.2, ?_⟩⟩
          obtain ⟨e1, e2, e3⟩ := e
          simp only at hec her
          rw [← her, ← hec]
          exact he
        · rintro ⟨hr, hne⟩
          obtain ⟨v, hv⟩ := (entry_ne_zero_iff hwf).1 hne
          exact ⟨(r, c, v), ⟨hv, rfl⟩, rfl⟩

/-- **C5.** After `setupMultiplicityScaling`, for every registered subdomain
`k` (with jump matrix `B` and local Schur operator `S`) and every local dof
`c` within the Schur operator's size, the stored scaling value equals `1`
plus the number of rows of subdomain `k`'s own jump matrix with a nonzero
entry in column `c`; consequently every scaling value is at least `1`,
hence strictly positive. -/
theorem setupMultiplicityScaling_spec (p : Prec)
    (hlen : p.jumpMatrices.length = p.localSchurOps.length)
    (k : ℕ) (B : SparseMat) (S : LinOp)
    (hB : p.jumpMatrices.get? k = some B)
    (hS : p.localSchurOps.get? k = some S)
    (hwf : B.WF) (hdim : B.cols ≤ S.rows) (c : ℕ) (hc : c < S.rows) :
    ∃ p', setupMultiplicityScaling p = Except.ok p' ∧
      p'.localScaling.get? k = some (scCompute S.rows B.entries) ∧
      (scCompute S.rows B.entries).getD c 0
        = 1 + (((Finset.range B.rows).filter (fun r => B.entry r c ≠ 0)).card : ℚ) ∧
      0 < (scCompute S.rows B.entries).getD c 0 := by
  refine ⟨_, by rw [setupMultiplicityScaling, if_pos hlen], ?_, ?_, ?_⟩
  · exact zipWith_get? _ _ _ k B S hB hS
  · rw [scCompute_getD S.rows B.entries c hc, filter_col_card B hwf c]
  · rw [scCompute_getD S.rows B.entries c hc]
    positivity

/-- **C5, witness.** Two jump-matrix rows touch column 2 of a concrete
subdomain with 3 local dofs: the scaling column is `[1, 1, 3]` and slot 2
holds `1 + 2 = 3 > 0`. -/
theorem setupMultiplicityScaling_spec_wit :
    (addSubdomain emptyPrec ⟨2, 3, [(0, 2, 1), (1, 2, -1)]⟩
        ⟨3, 3, fun x => x⟩).jumpMatrices.length
      = (addSubdomain emptyPrec ⟨2, 3, [(0, 2, 1), (1, 2, -1)]⟩
        ⟨3, 3, fun x => x⟩).localSchurOps.length ∧
    (⟨2, 3, [(0, 2, 1), (1, 2, -1)]⟩ : SparseMat).WF ∧
    (∃ p', setupMultiplicityScaling (addSubdomain emptyPrec ⟨2, 3, [(0, 2, 1), (1, 2, -1)]⟩
          ⟨3, 3, fun x => x⟩) = Except.ok p' ∧
      p'.localScaling.get? 0
        = some (scCompute 3 [(0, 2, 1), (1, 2, -1)]) ∧
      (scCompute 3 [(0, 2, 1), (1, 2, -1)]).getD 2 0
        = 1 + ((((Finset.range 2).filter
            (fun r => (⟨2, 3, [(0, 2, 1), (1, 2, -1)]⟩ : SparseMat).entry r 2 ≠ 0))).card : ℚ) ∧
      0 < (scCompute 3 [(0, 2, 1), (1, 2, -1)]).getD 2 0) :=
  ⟨rfl, by decide,
   setupMultiplicityScaling_spec
     (addSubdomain emptyPrec ⟨2, 3, [(0, 2, 1), (1, 2, -1)]⟩ ⟨3, 3, fun x => x⟩)
     rfl 0 ⟨2, 3, [(0, 2, 1), (1, 2, -1)]⟩
     ⟨3, 3, fun x => x⟩ rfl rfl (by decide) (by decide) 2 (by decide)⟩

/-! ## Claim C8 -/

/-- A stored entry determines the value at its position (well-formed
position lists store each position at most once). -/
theorem entry_eq_of_mem {m : SparseMat}
    (hnd : (m.entries.map (fun e => (e.1, e.2.1))).Nodup) {r c : ℕ} {v : ℚ}
    (hv : (r, c, v) ∈ m.entries) : m.entry r c = v := by
  unfold SparseMat.entry
  cases hfind : m.entries.find? (fun e => e.1 == r && e.2.1 == c) with
  | none =>
    have := List.find?_eq_none.1 hfind _ hv
    simp at this
  | some e =>
    have hmem := List.mem_of_find?_eq_some hfind
    have hpred := List.find?_some hfind
    simp only [Bool.and_eq_true, beq_iff_eq] at hpred
    have : e = (r, c, v) :=
      List.inj_on_of_nodup_map hnd hmem hv (by simp [hpred.1, hpred.2])
    rw [this]

/-- The restriction of a well-formed jump matrix to duplicate-free columns
is well-formed. -/
theorem restrict_WF (B : SparseMat) (dofs : List ℕ) (hwf : B.WF) (hnd : dofs.Nodup) :
    (restrictJumpMatrix B dofs).WF := by
  constructor
  · intro e' he'
    obtain ⟨e, he, hge⟩ := List.mem_filterMap.1 he'
    by_cases hm : e.2.1 ∈ dofs
    · rw [if_pos hm] at hge
      obtain ⟨rfl⟩ := Option.some_inj.1 hge
      exact ⟨(hwf.1 e he).1, List.indexOf_lt_length.2 hm, (hwf.1 e he).2.2⟩
    · rw [if_neg hm] at hge
      simp at hge
  · have hrw : (restrictJumpMatrix B dofs).entries.map (fun e => (e.1, e.2.1))
        = (B.entries.map (fun e => (e.1, e.2.1))).filterMap
            (fun q => if q.2 ∈ dofs then some (q.1, dofs.indexOf q.2) else none) := by
      show ((B.entries.filterMap _).map _) = _
      rw [List.map_filterMap, List.filterMap_map]
      congr 1
      funext e
      by_cases hm : e.2.1 ∈ dofs <;> simp [hm]
    rw [hrw]
    refine List.Nodup.filterMap ?_ hwf.2
    intro a a' b hb hb'
    by_cases hm : a.2 ∈ dofs
    · rw [if_pos hm, Option.mem_def, Option.some_inj] at hb
      by_cases hm' : a'.2 ∈ dofs
      · rw [if_pos hm', Option.mem_def, Option.some_inj] at hb'
        rw [← hb, Prod.mk.injEq] at hb'
        exact (Prod.ext hb'.1 ((List.indexOf_inj hm' hm).1 hb'.2)).symm
      · rw [if_neg hm'] at hb'; simp at hb'
    · rw [if_neg hm] at hb; simp at hb

/-- Membership in the restricted matrix, re-indexed: entry `(r, j, v)` is
stored in the restriction exactly when `(r, dofs[j], v)` is stored in the
original. -/
theorem restrict_mem_iff (B : SparseMat) (dofs : List ℕ) (hnd : dofs.Nodup)
    (r : ℕ) (j : Fin dofs.length) (v : ℚ) :
    (r, j.val, v) ∈ (restrictJumpMatrix B dofs).entries ↔
      (r, dofs.get j, v) ∈ B.entries := by
  show _ ∈ B.entries.filterMap _ ↔ _
  rw [List.mem_filterMap]
  constructor
  · rintro ⟨e, he, hge⟩
    by_cases hm : e.2.1 ∈ dofs
    · rw [if_pos hm, Option.some_inj] at hge
      obtain ⟨e1, e2, e3⟩ := e
      simp only [Prod.mk.injEq] at hge
      obtain ⟨h1, h2, h3⟩ := hge
      have hlt : dofs.indexOf e2 < dofs.length := List.indexOf_lt_length.2 hm
      have hget : dofs.get j = e2 := by
        have := List.indexOf_get (a := e2) (l := dofs) hlt
        rw [← this]
        congr 1
        exact Fin.ext h2.symm
      rw [hget, ← h1, ← h3]
      exact he
    · rw [if_neg hm] at hge
      simp at hge
  · intro hB
    refine ⟨(r, dofs.get j, v), hB, ?_⟩
    have hm : dofs.get j ∈ dofs := List.get_mem _ _ _
    rw [if_pos hm, Option.some_inj]
    have hidx : List.indexOf (dofs.get j) dofs = j.val := List.get_indexOf hnd j
    rw [hidx]

/-- Semantics of `restrictJumpMatrix` on values: column `j` of the result is
column `dofs[j]` of the original. -/
theorem restrict_entry (B : SparseMat) (dofs : List ℕ) (hwf : B.WF) (hnd : dofs.Nodup)
    (r : ℕ) (j : Fin dofs.length) :
    (restrictJumpMatrix B dofs).entry r j.val = B.entry r (dofs.get j) := by
  by_cases hne : B.entry r (dofs.get j) = 0
  · rw [hne]
    by_contra hR
    obtain ⟨v, hv⟩ := (entry_ne_zero_iff (restrict_WF B dofs hwf hnd)).1 hR
    have hB := (restrict_mem_iff B dofs hnd r j v).1 hv
    have heq : B.entry r (dofs.get j) = v := entry_eq_of_mem hwf.2 hB
    have hvne : v ≠ 0 := ((restrict_WF B dofs hwf hnd).1 _ hv).2.2
    exact hvne (by rw [← heq, hne])
  · obtain ⟨v, hv⟩ := (entry_ne_zero_iff hwf).1 hne
    have h1 : B.entry r (dofs.get j) = v := entry_eq_of_mem hwf.2 hv
    have h2 : (restrictJumpMatrix B dofs).entry r j.val = v :=
      entry_eq_of_mem (restrict_WF B dofs hwf hnd).2
        ((restrict_mem_iff B dofs hnd r j v).2 hv)
    rw [h1, h2]

/-- When every stored column of `B` is kept, zero-padding the restriction
recovers the original entry list verbatim. -/
theorem pad_restrict_entries (B : SparseMat) (dofs : List ℕ)
    (hcov : ∀ e ∈ B.entries, e.2.1 ∈ dofs) :
    (padJumpMatrix (restrictJumpMatrix B dofs) dofs B.cols).entries = B.entries := by
  show (B.entries.filterMap _).map _ = B.entries
  have main : ∀ l : List (ℕ × ℕ × ℚ), (∀ e ∈ l, e.2.1 ∈ dofs) →
      ((l.filterMap (fun e =>
          if e.2.1 ∈ dofs then some (e.1, dofs.indexOf e.2.1, e.2.2) else none)).map
        (fun e => (e.1, dofs.getD e.2.1 0, e.2.2))) = l := by
    intro l
    induction l with
    | nil => intro _; rfl
    | cons e es ih =>
      obtain ⟨e1, e2, e3⟩ := e
      intro hcov'
      have hm : e2 ∈ dofs := hcov' (e1, e2, e3) (List.mem_cons_self _ es)
      have hlt : List.indexOf e2 dofs < dofs.length := List.indexOf_lt_length.2 hm
      have hgd : dofs.getD (List.indexOf e2 dofs) 0 = e2 := by
        rw [List.getD_eq_getD_get? dofs 0 (List.indexOf e2 dofs), List.indexOf_get? hm]
        rfl
      rw [List.filterMap_cons, if_pos hm, List.map_cons,
        ih (fun f hf => hcov' f (List.mem_cons_of_mem _ hf))]
      congr 1
      exact Prod.ext rfl (Prod.ext hgd rfl)
  exact main B.entries hcov

/-- **C8 (amended).** For every well-formed jump matrix `B` and every
duplicate-free list `dofs` of valid column indices, `restrictJumpMatrix`
returns `B` restricted to exactly those columns, re-indexed `0..|dofs|-1`
in the order given with all other columns dropped (dimensions, well
formedness and values); and, *provided every column of `B` holding a
nonzero entry is among `dofs`* (as is the case for `dofs = skeletonDofs B`),
zero-padding the dropped columns reproduces `B` exactly — without that
proviso the round-trip fails (see the counterexample). -/
theorem restrictJumpMatrix_spec (B : SparseMat) (dofs : List ℕ)
    (hwf : B.WF) (hnd : dofs.Nodup) (hval : ∀ d ∈ dofs, d < B.cols) :
    (restrictJumpMatrix B dofs).rows = B.rows ∧
    (restrictJumpMatrix B dofs).cols = dofs.length ∧
    (restrictJumpMatrix B dofs).WF ∧
    (∀ (r : ℕ) (j : Fin dofs.length),
      (restrictJumpMatrix B dofs).entry r j.val = B.entry r (dofs.get j)) ∧
    ((∀ e ∈ B.entries, e.2.1 ∈ dofs) → ∀ r c : ℕ,
      (padJumpMatrix (restrictJumpMatrix B dofs) dofs B.cols).entry r c
        = B.entry r c) := by
  refine ⟨rfl, rfl, restrict_WF B dofs hwf hnd, restrict_entry B dofs hwf hnd, ?_⟩
  intro hcov r c
  unfold SparseMat.entry
  rw [pad_restrict_entries B dofs hcov]

/-- **C8, witness.** A concrete restriction: `B` is `2×3` with entries in
columns 1 and 2, `dofs = [1, 2]` covers them; all hypotheses hold and the
conclusion is instantiated. -/
theorem restrictJumpMatrix_spec_wit :
    (⟨2, 3, [(0, 2, 1), (1, 1, 2)]⟩ : SparseMat).WF ∧
    ([1, 2] : List ℕ).Nodup ∧
    (∀ d ∈ ([1, 2] : List ℕ), d < 3) ∧
    ((restrictJumpMatrix ⟨2, 3, [(0, 2, 1), (1, 1, 2)]⟩ [1, 2]).rows = 2 ∧
      (restrictJumpMatrix ⟨2, 3, [(0, 2, 1), (1, 1, 2)]⟩ [1, 2]).cols = 2 ∧
      (restrictJumpMatrix ⟨2, 3, [(0, 2, 1), (1, 1, 2)]⟩ [1, 2]).WF ∧
      (∀ (r : ℕ) (j : Fin ([1, 2] : List ℕ).length),
        (restrictJumpMatrix ⟨2, 3, [(0, 2, 1), (1, 1, 2)]⟩ [1, 2]).entry r j.val
          = (⟨2, 3, [(0, 2, 1), (1, 1, 2)]⟩ : SparseMat).entry r (([1, 2] : List ℕ).get j)) ∧
      ((∀ e ∈ (⟨2, 3, [(0, 2, 1), (1, 1, 2)]⟩ : SparseMat).entries, e.2.1 ∈ ([1, 2] : List ℕ)) →
        ∀ r c : ℕ,
        (padJumpMatrix (restrictJumpMatrix ⟨2, 3, [(0, 2, 1), (1, 1, 2)]⟩ [1, 2]) [1, 2] 3).entry r c
          = (⟨2, 3, [(0, 2, 1), (1, 1, 2)]⟩ : SparseMat).entry r c)) :=
  ⟨by decide, by decide, by decide,
   restrictJumpMatrix_spec ⟨2, 3, [(0, 2, 1), (1, 1, 2)]⟩ [1, 2]
     (by decide) (by decide) (by decide)⟩

/-- **C8, counterexample.** For `B = [[1, 1]]` (nonzero entries in both
columns) and `dofs = [0]` — a duplicate-free list of valid column indices —
zero-padding the dropped column of the restriction does *not* reproduce
`B`'s nonzero pattern: position `(0, 1)` is zero after the round-trip but
nonzero in `B`. -/
theorem restrictJumpMatrix_roundtrip_cx :
    (⟨1, 2, [(0, 0, 1), (0, 1, 1)]⟩ : SparseMat).WF ∧
    ([0] : List ℕ).Nodup ∧
    (∀ d ∈ ([0] : List ℕ), d < 2) ∧
    (padJumpMatrix (restrictJumpMatrix ⟨1, 2, [(0, 0, 1), (0, 1, 1)]⟩ [0]) [0] 2).entry 0 1 = 0 ∧
    (⟨1, 2, [(0, 0, 1), (0, 1, 1)]⟩ : SparseMat).entry 0 1 = 1 := by
  refine ⟨by decide, by decide, by decide, ?_, ?_⟩ <;> decide

/-! ## Claim C3 -/

/-- **C3.** First conjunct: for every square matrix `M`, kept-index list
`dofs` and right inverse `Binv` of the stored (negated) interior block, the
lazily composed operator built by `schurComplement` — `A00·x` plus
`A01·(solver (A10·x))` with `solver` realizing the inverse of the stored
block — equals the explicit Schur-complement matrix
`A00 − A01·A11⁻¹·A10` applied to `x`, where `A11 = −(stored block)` is the
true interior block.  Second conjunct: when `dofs` is the full index set in
order (`A11` empty), the operator acts as `M` itself (up to the `Fin`
re-indexing equivalence). -/
theorem schurComplement_spec :
    (∀ (n : ℕ) (M : Matrix (Fin n) (Fin n) ℚ) (dofs : List (Fin n))
        (Binv : Matrix (Fin (interiorDofs n dofs).length)
          (Fin (interiorDofs n dofs).length) ℚ),
      M.IsSymm → dofs.Nodup → blkA11 M dofs * Binv = 1 →
      ∀ x : Fin dofs.length → ℚ,
        schurComplementApply M dofs Binv.mulVec x
          = (blkA00 M dofs
              - blkA01 M dofs * (- blkA11 M dofs)⁻¹ * blkA10 M dofs).mulVec x) ∧
    (∀ (n : ℕ) (M : Matrix (Fin n) (Fin n) ℚ)
        (solver : (Fin (interiorDofs n (List.finRange n)).length → ℚ) →
          Fin (interiorDofs n (List.finRange n)).length → ℚ)
        (x : Fin (List.finRange n).length → ℚ) (i : Fin (List.finRange n).length),
      schurComplementApply M (List.finRange n) solver x i
        = M.mulVec (fun j => x ((finCongr (List.length_finRange n)).symm j))
            ((List.finRange n).get i)) := by
  constructor
  · intro n M dofs Binv _ _ hB x
    have hinv : (- blkA11 M dofs)⁻¹ = - Binv := by
      apply Matrix.inv_eq_right_inv
      rw [Matrix.neg_mul, Matrix.mul_neg, neg_neg, hB]
    rw [hinv, Matrix.mul_neg, Matrix.neg_mul, sub_neg_eq_add, Matrix.add_mulVec,
      schurComplementApply]
    congr 1
    rw [Matrix.mulVec_mulVec, Matrix.mulVec_mulVec]
  · intro n M solver x i
    have hcomp : interiorDofs n (List.finRange n) = [] := by
      rw [interiorDofs, List.filter_eq_nil]
      intro a _
      simp [List.elem_iff.2 (List.mem_finRange a)]
    have hlen0 : (interiorDofs n (List.finRange n)).length = 0 := by rw [hcomp]; rfl
    haveI : IsEmpty (Fin (interiorDofs n (List.finRange n)).length) := by
      rw [hlen0]; infer_instance
    have hzero : (blkA01 M (List.finRange n)).mulVec
        (solver ((blkA10 M (List.finRange n)).mulVec x)) = 0 := by
      funext k
      simp [Matrix.mulVec, Matrix.dotProduct]
    rw [schurComplementApply]
    rw [Pi.add_apply, hzero, Pi.zero_apply, add_zero]
    rw [Matrix.mulVec, Matrix.mulVec, Matrix.dotProduct, Matrix.dotProduct]
    refine Fintype.sum_equiv (finCongr (List.length_finRange n)) _ _ ?_
    intro j
    obtain ⟨jv, hj⟩ := j
    rw [blkA00, Matrix.of_apply, Equiv.symm_apply_apply]
    have hcast : (List.finRange n).get ⟨jv, hj⟩
        = finCongr (List.length_finRange n) ⟨jv, hj⟩ := by
      rw [List.get_finRange]
      rfl
    rw [hcast]

/-- **C3, witness.** The degenerate full-index instance `M = [[2]]`,
`dofs = [0]` (empty interior block, identity solver), together with the
hypotheses of the first conjunct discharged concretely. -/
theorem schurComplement_spec_wit :
    ((!![2] : Matrix (Fin 1) (Fin 1) ℚ).IsSymm ∧ ([(0 : Fin 1)]).Nodup ∧
      blkA11 (!![2] : Matrix (Fin 1) (Fin 1) ℚ) [(0 : Fin 1)] * 1 = 1) ∧
    schurComplementApply (!![2] : Matrix (Fin 1) (Fin 1) ℚ) [(0 : Fin 1)]
        (Matrix.mulVec (1 : Matrix (Fin (interiorDofs 1 [(0 : Fin 1)]).length)
          (Fin (interiorDofs 1 [(0 : Fin 1)]).length) ℚ))
        (fun _ => 3)
      = (blkA00 (!![2] : Matrix (Fin 1) (Fin 1) ℚ) [(0 : Fin 1)]
          - blkA01 (!![2] : Matrix (Fin 1) (Fin 1) ℚ) [(0 : Fin 1)]
            * (- blkA11 (!![2] : Matrix (Fin 1) (Fin 1) ℚ) [(0 : Fin 1)])⁻¹
            * blkA10 (!![2] : Matrix (Fin 1) (Fin 1) ℚ) [(0 : Fin 1)]).mulVec
          (fun _ => 3) :=
  ⟨⟨by decide, by decide, by decide⟩,
   schurComplement_spec.1 1 !![2] [(0 : Fin 1)] 1 (by decide) (by decide) (by decide)
     (fun _ => 3)⟩

/-! ## Claim C4 -/

/-- **C4.** Two registered subdomains share one interface dof (local index
2 of 3) through exactly one Lagrange multiplier, with jump rows `[0,0,1]`
and `[0,0,-1]` and arbitrary local Schur matrices `S1`, `S2`.  Multiplicity
scaling gives the shared dof the value `2` on each side (scaling columns
`[1,1,2]`), and the assembled preconditioner — the additive combination of
`B_k · D_k · S_k · D_k · B_kᵀ` — applied to the unit vector of the single
multiplier row yields each side's Schur contribution `S_k[2,2]` scaled by
`1/(2·2) = 1/4`. -/
theorem preconditioner_multiplicity_quarter (S1 S2 : Matrix (Fin 3) (Fin 3) ℚ) :
    ∃ (p' : Prec) (P : LinOp),
      setupMultiplicityScaling (addSubdomain (addSubdomain emptyPrec
          ⟨1, 3, [(0, 2, 1)]⟩ (ofMatrixOp S1)) ⟨1, 3, [(0, 2, -1)]⟩ (ofMatrixOp S2))
        = Except.ok p' ∧
      p'.localScaling = [[1, 1, 2], [1, 1, 2]] ∧
      preconditioner p' = Except.ok P ∧
      P.apply [1] = [S1 2 2 / 4 + S2 2 2 / 4] := by
  refine ⟨_, _, rfl, ?_, rfl, ?_⟩
  · show List.zipWith _ _ _ = _
    norm_num [addSubdomain, emptyPrec, ofMatrixOp, scCompute, List.replicate]
  · show additiveApply _ _ = _
    norm_num [addSubdomain, emptyPrec, additiveApply, localDSD, scalingOp, ofMatrixOp,
      smApply, smApplyTrans, scCompute, vadd, List.replicate, List.range_succ,
      Fin.sum_univ_three]
    ring

end Gismo
